import Mathlib

/-!
Verification of the diffusion-maps module (`diffusion_maps/diffusion_maps.py`).

The module works on sparse matrices in CSR format (`scipy.sparse.csr_matrix`):
a matrix is stored as three arrays `data`, `indices`, `indptr`, where the
stored entries of row `i` are `data[indptr[i] : indptr[i+1]]` with column
indices `indices[indptr[i] : indptr[i+1]]`.  We embed such matrices as a
structure over `List ℝ` / `List ℕ` and translate the module's functions:

* `DiffusionMaps.kernel_function` — the Gaussian kernel
  `exp(-d² / (2·epsilon))` applied elementwise;
* `DiffusionMaps._compute_kernel_matrix` — maps `kernel_function` over the
  `data` array of the distance matrix and rebuilds the matrix with the same
  `indices`/`indptr` (scipy's `_with_data`);
* `make_stochastic_matrix` — divides each row block `data[indptr[i]:indptr[i+1]]`
  by its sum, in place;
* `DiffusionMaps.__get_cut_off` and the `cut_off` defaulting logic of
  `DiffusionMaps.__init__`;
* `downsample` — order-preserving random subsampling (the random draw of
  `np.random.choice` is an explicit parameter `pick`).

Machine reals are modelled as `ℝ`.  The eigensolver backends
(`cpu_eigensolver` / `gpu_eigensolver`) are not part of the provided source;
their contract is modelled from the spec where needed (`SolverOK`).
-/

noncomputable section

/-- A sparse matrix in CSR format: `rows × cols`, stored entries `data`,
column indices `indices`, row pointers `indptr`. -/
structure Csr where
  rows : Nat
  cols : Nat
  indptr : List Nat
  indices : List Nat
  data : List ℝ

namespace Csr

/-- The `i`-th row pointer (`indptr[i]`). -/
def ptr (m : Csr) (i : Nat) : Nat := m.indptr.getD i 0

/-- The stored values of row `i`: `data[indptr[i] : indptr[i+1]]`. -/
def rowSlice (m : Csr) (i : Nat) : List ℝ :=
  (m.data.drop (m.ptr i)).take (m.ptr (i+1) - m.ptr i)

/-- The column indices of row `i`: `indices[indptr[i] : indptr[i+1]]`. -/
def rowIndices (m : Csr) (i : Nat) : List Nat :=
  (m.indices.drop (m.ptr i)).take (m.ptr (i+1) - m.ptr i)

/-- Well-formedness of a CSR matrix: `indptr` has length `rows + 1`, starts
at `0`, ends at `data.length`, is monotone, `indices` is parallel to `data`,
and every column index is in range. -/
def Wf (m : Csr) : Prop :=
  m.indptr.length = m.rows + 1 ∧
  m.ptr 0 = 0 ∧
  m.ptr m.rows = m.data.length ∧
  m.indices.length = m.data.length ∧
  (∀ i, i < m.rows → m.ptr i ≤ m.ptr (i+1)) ∧
  (∀ j ∈ m.indices, j < m.cols)

instance (m : Csr) : Decidable m.Wf := by
  unfold Wf; infer_instance

/-- The (column, value) pairs stored in row `i`. -/
def rowPairs (m : Csr) (i : Nat) : List (Nat × ℝ) :=
  (m.rowIndices i).zip (m.rowSlice i)

/-- The stored value at position `(i, j)`, if position `(i, j)` is stored
(the first stored entry of row `i` with column index `j`). -/
def lookup (m : Csr) (i j : Nat) : Option ℝ :=
  ((m.rowPairs i).find? (fun p => p.1 == j)).map (·.2)

/-- Sparse matrix–vector product, row `i`:
`Σ_p data[p] * v (indices[p])` over the stored entries of row `i`. -/
def matVec (m : Csr) (v : Nat → ℝ) (i : Nat) : ℝ :=
  (List.zipWith (fun j x => x * v j) (m.rowIndices i) (m.rowSlice i)).sum

end Csr

/-- Source `make_stochastic_matrix` (diffusion_maps.py, lines 54-71): for each
row `i`, in place, divide the row block `data[indptr[i]:indptr[i+1]]` by its
sum `norm1`.  The in-place loop is embedded as rebuilding `data` row block by
row block; `indices` and `indptr` are never touched. -/
def make_stochastic_matrix (m : Csr) : Csr :=
  { m with data :=
      (List.range m.rows).flatMap (fun i =>
        (m.rowSlice i).map (fun x => x / (m.rowSlice i).sum)) }

namespace DiffusionMaps

/-- Source `DiffusionMaps.kernel_function` (lines 212-216):
`np.exp(-np.square(distances) / (2.0 * epsilon))`, elementwise on one value. -/
def kernel_function (epsilon d : ℝ) : ℝ :=
  Real.exp (-(d ^ 2) / (2 * epsilon))

/-- Source `DiffusionMaps._compute_kernel_matrix` (lines 189-210): apply
`kernel_function` to the `data` array of the distance matrix and rebuild the
matrix with the same sparsity structure (`distance_matrix._with_data(...)`). -/
def compute_kernel_matrix (epsilon : ℝ) (distance_matrix : Csr) : Csr :=
  { distance_matrix with
      data := distance_matrix.data.map (kernel_function epsilon) }

/-- Source `DiffusionMaps.__get_cut_off` (lines 182-187): `2.0 * epsilon`. -/
def get_cut_off (epsilon : ℝ) : ℝ := 2.0 * epsilon

/-- Source `DiffusionMaps.__init__` (lines 131-134): `self._cut_off` is the
supplied `cut_off` when given (unchanged, no validation), else
`__get_cut_off(epsilon)`. -/
def resolve_cut_off (epsilon : ℝ) (cut_off : Option ℝ) : ℝ :=
  match cut_off with
  | none => get_cut_off epsilon
  | some c => c

end DiffusionMaps

/-- Source `downsample` (lines 28-51).  `pick` is the index list drawn by
`np.random.choice(range(len(data)), num_samples, replace=False)`; the source
then sorts it and selects those rows.  The `assert num_samples <= data.shape[0]`
is embedded as returning `none` when the assertion fails. -/
def downsample (data : List (List ℝ)) (num_samples : Nat) (pick : List Nat) :
    Option (List (List ℝ)) :=
  if num_samples ≤ data.length then
    some ((pick.mergeSort (fun a b => decide (a ≤ b))).map (fun i => data.getD i []))
  else
    none

/-- An eigenpair of the CSR matrix `m`: a vector not vanishing on the first
`m.rows` coordinates, with `m · v = mu • v` on those coordinates. -/
def IsEigenpair (m : Csr) (mu : ℝ) (v : Nat → ℝ) : Prop :=
  (∃ i, i < m.rows ∧ v i ≠ 0) ∧ ∀ i, i < m.rows → m.matVec v i = mu * v i

/-- An eigenvalue of the CSR matrix `m`. -/
def IsEigenvalue (m : Csr) (mu : ℝ) : Prop :=
  ∃ v, IsEigenpair m mu v

/-- Modelled from the spec: the eigensolver backends
(`cpu_eigensolver.eigensolver` / `gpu_eigensolver.eigensolver`) are not in the
provided source.  Per the spec (§4.4) a solver result for `(m, k)` either
fails (k > N, non-convergence, unavailable backend) or returns exactly `k`
eigenpairs sorted by descending eigenvalue, with no eigenvalue of `m`
exceeding the first returned one (the returned pairs are the top ones). -/
def SolverOK (m : Csr) (k : Nat) :
    Except Unit (List ℝ × List (Nat → ℝ)) → Prop
  | .error _ => True
  | .ok (ews, evs) =>
      k ≤ m.rows ∧ ews.length = k ∧ evs.length = k ∧
      List.Sorted (fun a b => a ≥ b) ews ∧
      (∀ p, p < k → IsEigenpair m (ews.getD p 0) (evs.getD p (fun _ => 0))) ∧
      (∀ mu, IsEigenvalue m mu → ∀ l0 ∈ ews.head?, mu ≤ l0)

/-! ## Helper lemmas -/

namespace Csr

lemma rowSlice_compute_kernel (epsilon : ℝ) (m : Csr) (i : Nat) :
    (DiffusionMaps.compute_kernel_matrix epsilon m).rowSlice i
      = (m.rowSlice i).map (DiffusionMaps.kernel_function epsilon) := by
  simp [rowSlice, DiffusionMaps.compute_kernel_matrix, ptr, List.map_take, List.map_drop]

lemma sum_range_map_sub (g : Nat → Nat) (n : Nat)
    (hmono : ∀ k, k < n → g k ≤ g (k+1)) :
    ((List.range n).map (fun k => g (k+1) - g k)).sum + g 0 = g n := by
  induction n with
  | zero => simp
  | succ n ih =>
    have h2 := ih (fun k hk => hmono k (Nat.lt_succ_of_lt hk))
    have h1 : g n ≤ g (n+1) := hmono n (Nat.lt_succ_self n)
    rw [List.range_succ, List.map_append, List.sum_append]
    simp only [List.map_cons, List.map_nil, List.sum_cons, List.sum_nil]
    omega

lemma ptr_le_of_le (m : Csr) (hmono : ∀ k, k < m.rows → m.ptr k ≤ m.ptr (k+1)) :
    ∀ {i j : Nat}, i ≤ j → j ≤ m.rows → m.ptr i ≤ m.ptr j := by
  intro i j hij hj
  induction j, hij using Nat.le_induction with
  | base => exact le_refl _
  | succ j hij ih =>
    exact le_trans (ih (by omega)) (hmono j (by omega))

lemma rowSlice_length (m : Csr) (hwf : m.Wf) {i : Nat} (hi : i < m.rows) :
    (m.rowSlice i).length = m.ptr (i+1) - m.ptr i := by
  have hle : m.ptr (i+1) ≤ m.data.length := by
    have := ptr_le_of_le m hwf.2.2.2.2.1 (i := i+1) (j := m.rows) hi (le_refl _)
    exact hwf.2.2.1 ▸ this
  simp only [rowSlice, List.length_take, List.length_drop]
  omega

lemma rowIndices_length (m : Csr) (hwf : m.Wf) {i : Nat} (hi : i < m.rows) :
    (m.rowIndices i).length = m.ptr (i+1) - m.ptr i := by
  have hle : m.ptr (i+1) ≤ m.data.length := by
    have := ptr_le_of_le m hwf.2.2.2.2.1 (i := i+1) (j := m.rows) hi (le_refl _)
    exact hwf.2.2.1 ▸ this
  have h4 := hwf.2.2.2.1
  simp only [rowIndices, List.length_take, List.length_drop]
  omega

lemma sum_map_div (xs : List ℝ) (s : ℝ) :
    (xs.map (fun x => x / s)).sum = xs.sum / s := by
  induction xs with
  | nil => simp
  | cons x xs ih => simp [ih, add_div]

lemma rowSlice_make_stochastic (m : Csr) (hwf : m.Wf) {i : Nat} (hi : i < m.rows) :
    (make_stochastic_matrix m).rowSlice i
      = (m.rowSlice i).map (fun x => x / (m.rowSlice i).sum) := by
  have hflen : ∀ k, k < m.rows →
      ((m.rowSlice k).map (fun x => x / (m.rowSlice k).sum)).length
        = m.ptr (k+1) - m.ptr k := by
    intro k hk
    simpa using rowSlice_length m hwf hk
  have hmaplen :
      (((List.range m.rows).map
          (fun k => (m.rowSlice k).map (fun x => x / (m.rowSlice k).sum))).map
        List.length)
        = (List.range m.rows).map (fun k => m.ptr (k+1) - m.ptr k) := by
    rw [List.map_map]
    exact List.map_congr_left (fun k hk => hflen k (List.mem_range.mp hk))
  have htake :
      (List.take i
        (((List.range m.rows).map
            (fun k => (m.rowSlice k).map (fun x => x / (m.rowSlice k).sum))).map
          List.length)).sum = m.ptr i := by
    rw [hmaplen, ← List.map_take, List.take_range]
    rw [min_eq_left hi.le]
    have hsum := sum_range_map_sub m.ptr i
      (fun k hk => hwf.2.2.2.2.1 k (hk.trans hi))
    have h0 := hwf.2.1
    omega
  have key :
      ((List.range m.rows).flatMap
          (fun k => (m.rowSlice k).map (fun x => x / (m.rowSlice k).sum))).drop
        (m.ptr i)
        = ((m.rowSlice i).map (fun x => x / (m.rowSlice i).sum))
            ++ (((List.range m.rows).drop (i+1)).map
                (fun k => (m.rowSlice k).map (fun x => x / (m.rowSlice k).sum))).flatten := by
    rw [List.flatMap_def]
    conv_lhs => rw [← htake]
    rw [List.drop_sum_flatten, ← List.map_drop,
      List.drop_eq_getElem_cons (by simpa using hi)]
    simp [List.getElem_range]
  show (((List.range m.rows).flatMap
      (fun k => (m.rowSlice k).map (fun x => x / (m.rowSlice k).sum))).drop
        (m.ptr i)).take (m.ptr (i+1) - m.ptr i) = _
  rw [key]
  exact List.take_left' (hflen i hi)

end Csr

/-! ## Claims -/

/-- C1: for every valid point set and epsilon > 0, each stored entry of the
kernel matrix equals `exp(-d² / (2·epsilon))` of the corresponding stored
distance `d`; consequently every kernel entry lies in `(0, 1]`, and for
stored distances `d1 ≤ d2` the kernel value at `d1` is ≥ the value at `d2`. -/
theorem kernel_entries_exp_range_monotone (epsilon : ℝ) (dm : Csr)
    (heps : 0 < epsilon) (hd : ∀ d ∈ dm.data, 0 ≤ d) :
    (∀ p, p < dm.data.length →
      (DiffusionMaps.compute_kernel_matrix epsilon dm).data.getD p 0
        = Real.exp (-(dm.data.getD p 0) ^ 2 / (2 * epsilon))) ∧
    (∀ x ∈ (DiffusionMaps.compute_kernel_matrix epsilon dm).data, 0 < x ∧ x ≤ 1) ∧
    (∀ d1 ∈ dm.data, ∀ d2 ∈ dm.data, d1 ≤ d2 →
      DiffusionMaps.kernel_function epsilon d2
        ≤ DiffusionMaps.kernel_function epsilon d1) := by
  have h2e : (0:ℝ) < 2 * epsilon := by linarith
  refine ⟨?_, ?_, ?_⟩
  · intro p hp
    have hp' : p < (dm.data.map (DiffusionMaps.kernel_function epsilon)).length := by
      simpa using hp
    show (dm.data.map (DiffusionMaps.kernel_function epsilon)).getD p 0 = _
    rw [List.getD_eq_getElem _ _ hp', List.getElem_map, List.getD_eq_getElem _ _ hp]
    rfl
  · intro x hx
    obtain ⟨d, _, rfl⟩ := List.mem_map.mp hx
    refine ⟨Real.exp_pos _, Real.exp_le_one_iff.mpr ?_⟩
    have hsq : (0:ℝ) ≤ d ^ 2 := sq_nonneg d
    have : (0:ℝ) ≤ d ^ 2 / (2 * epsilon) := div_nonneg hsq h2e.le
    rw [neg_div]
    linarith
  · intro d1 h1 d2 h2 h12
    show Real.exp _ ≤ Real.exp _
    rw [Real.exp_le_exp, neg_div, neg_div, neg_le_neg_iff]
    exact div_le_div_of_nonneg_right (pow_le_pow_left₀ (hd d1 h1) h12 2) h2e.le

/-- Concrete witness for C1 (one point, distance 0, epsilon = 1). -/
theorem kernel_entries_exp_range_monotone_witness :
    (0:ℝ) < 1 ∧ (∀ d ∈ (Csr.mk 1 1 [0, 1] [0] [0]).data, 0 ≤ d) ∧
    ((∀ p, p < (Csr.mk 1 1 [0, 1] [0] [0]).data.length →
      (DiffusionMaps.compute_kernel_matrix 1 (Csr.mk 1 1 [0, 1] [0] [0])).data.getD p 0
        = Real.exp (-((Csr.mk 1 1 [0, 1] [0] [0]).data.getD p 0) ^ 2 / (2 * 1))) ∧
    (∀ x ∈ (DiffusionMaps.compute_kernel_matrix 1 (Csr.mk 1 1 [0, 1] [0] [0])).data,
      0 < x ∧ x ≤ 1) ∧
    (∀ d1 ∈ (Csr.mk 1 1 [0, 1] [0] [0]).data, ∀ d2 ∈ (Csr.mk 1 1 [0, 1] [0] [0]).data,
      d1 ≤ d2 →
      DiffusionMaps.kernel_function 1 d2 ≤ DiffusionMaps.kernel_function 1 d1)) :=
  ⟨by norm_num, by simp,
    kernel_entries_exp_range_monotone 1 (Csr.mk 1 1 [0, 1] [0] [0]) (by norm_num) (by simp)⟩

/-- C2: the kernel matrix produced from a sparse distance matrix has exactly
the same stored structure: `rows`, `cols`, `indptr`, `indices` are unchanged
and there is one stored value per stored distance, so kernel evaluation
neither drops nor adds any stored entry. -/
theorem kernel_matrix_same_sparsity (epsilon : ℝ) (dm : Csr) :
    (DiffusionMaps.compute_kernel_matrix epsilon dm).rows = dm.rows ∧
    (DiffusionMaps.compute_kernel_matrix epsilon dm).cols = dm.cols ∧
    (DiffusionMaps.compute_kernel_matrix epsilon dm).indptr = dm.indptr ∧
    (DiffusionMaps.compute_kernel_matrix epsilon dm).indices = dm.indices ∧
    (DiffusionMaps.compute_kernel_matrix epsilon dm).data.length = dm.data.length :=
  ⟨rfl, rfl, rfl, rfl, by simp [DiffusionMaps.compute_kernel_matrix]⟩

/-- C10: `make_stochastic_matrix` touches only the stored values: shape,
`indptr` and `indices` are identical before and after normalization, and the
`data` array keeps its length, so row-normalization never drops or adds a
stored entry. -/
theorem make_stochastic_frame (m : Csr) (hwf : m.Wf) :
    (make_stochastic_matrix m).rows = m.rows ∧
    (make_stochastic_matrix m).cols = m.cols ∧
    (make_stochastic_matrix m).indptr = m.indptr ∧
    (make_stochastic_matrix m).indices = m.indices ∧
    (make_stochastic_matrix m).data.length = m.data.length := by
  refine ⟨rfl, rfl, rfl, rfl, ?_⟩
  show ((List.range m.rows).flatMap fun i =>
      (m.rowSlice i).map fun x => x / (m.rowSlice i).sum).length = m.data.length
  rw [List.length_flatMap]
  have hcong : (List.map
      (List.length ∘ fun k => (m.rowSlice k).map fun x => x / (m.rowSlice k).sum)
      (List.range m.rows))
      = (List.range m.rows).map (fun k => m.ptr (k+1) - m.ptr k) :=
    List.map_congr_left (fun k hk => by
      simpa using Csr.rowSlice_length m hwf (List.mem_range.mp hk))
  rw [hcong]
  have hsum := Csr.sum_range_map_sub m.ptr m.rows hwf.2.2.2.2.1
  have h0 := hwf.2.1
  have hN := hwf.2.2.1
  omega

/-- Concrete witness for C10. -/
theorem make_stochastic_frame_witness :
    (Csr.mk 1 1 [0, 1] [0] [0]).Wf ∧
    ((make_stochastic_matrix (Csr.mk 1 1 [0, 1] [0] [0])).rows
        = (Csr.mk 1 1 [0, 1] [0] [0]).rows ∧
      (make_stochastic_matrix (Csr.mk 1 1 [0, 1] [0] [0])).cols
        = (Csr.mk 1 1 [0, 1] [0] [0]).cols ∧
      (make_stochastic_matrix (Csr.mk 1 1 [0, 1] [0] [0])).indptr
        = (Csr.mk 1 1 [0, 1] [0] [0]).indptr ∧
      (make_stochastic_matrix (Csr.mk 1 1 [0, 1] [0] [0])).indices
        = (Csr.mk 1 1 [0, 1] [0] [0]).indices ∧
      (make_stochastic_matrix (Csr.mk 1 1 [0, 1] [0] [0])).data.length
        = (Csr.mk 1 1 [0, 1] [0] [0]).data.length) :=
  ⟨by decide, make_stochastic_frame (Csr.mk 1 1 [0, 1] [0] [0]) (by decide)⟩

/-- C5 counterexample: an explicit cut-off smaller than epsilon is accepted
unchanged: with `epsilon = 1` and `cut_off = 1/2 < 1` the invocation proceeds
with `_cut_off = 1/2` and no error is raised, so the invariant
`cut_off ≥ epsilon` fails for explicitly supplied cut-offs. -/
theorem cut_off_below_epsilon_accepted :
    DiffusionMaps.resolve_cut_off 1 (some (1/2)) = 1/2 ∧ ((1:ℝ)/2) < 1 :=
  ⟨rfl, by norm_num⟩

/-- C5 (amended): when no cut-off is supplied the engine defaults it to
exactly `2·epsilon` (which is ≥ epsilon for positive epsilon); an explicitly
supplied cut-off is stored unchanged, with no validation against epsilon and
no error. -/
theorem cut_off_defaulting (epsilon : ℝ) :
    DiffusionMaps.resolve_cut_off epsilon none = 2 * epsilon ∧
    (0 < epsilon → epsilon ≤ DiffusionMaps.resolve_cut_off epsilon none) ∧
    (∀ c, DiffusionMaps.resolve_cut_off epsilon (some c) = c) := by
  have h2 : DiffusionMaps.resolve_cut_off epsilon none = 2 * epsilon := by
    show (2.0 : ℝ) * epsilon = 2 * epsilon
    norm_num
  refine ⟨h2, ?_, fun c => rfl⟩
  intro h
  rw [h2]
  linarith

/-- Concrete witness for C5's amended statement. -/
theorem cut_off_defaulting_witness :
    (0:ℝ) < 1 ∧ DiffusionMaps.resolve_cut_off 1 none = 2 * 1 ∧
    (1:ℝ) ≤ DiffusionMaps.resolve_cut_off 1 none ∧
    (∀ c : ℝ, DiffusionMaps.resolve_cut_off 1 (some c) = c) :=
  ⟨by norm_num, (cut_off_defaulting 1).1, (cut_off_defaulting 1).2.1 (by norm_num),
    (cut_off_defaulting 1).2.2⟩

/-- C4 counterexample: on a matrix whose single row's stored entries sum to
0, `make_stochastic_matrix` completes and returns a result (each entry
divided by the zero row sum) — it has no failure path and reports no
`NumericalFault`. -/
theorem zero_row_sum_returns_result :
    ((Csr.mk 1 1 [0, 1] [0] [0]).rowSlice 0).sum = 0 ∧
    make_stochastic_matrix (Csr.mk 1 1 [0, 1] [0] [0]) = Csr.mk 1 1 [0, 1] [0] [0] := by
  constructor
  · simp [Csr.rowSlice, Csr.ptr]
  · simp [make_stochastic_matrix, Csr.rowSlice, Csr.ptr, List.range_succ, Csr.mk.injEq]

/-- C4 (amended): `make_stochastic_matrix` performs no zero-row-sum check: it
divides every row by its sum unconditionally, so a row whose stored entries
sum to 0 is divided by zero (in floating point this propagates NaN/Inf) and
the function returns normally instead of reporting a `NumericalFault`. -/
theorem make_stochastic_zero_row_divides (m : Csr) (hwf : m.Wf) {i : Nat}
    (hi : i < m.rows) (hzero : (m.rowSlice i).sum = 0) :
    (make_stochastic_matrix m).rowSlice i = (m.rowSlice i).map (fun x => x / 0) := by
  rw [Csr.rowSlice_make_stochastic m hwf hi, hzero]

/-- Concrete witness for C4's amended statement. -/
theorem make_stochastic_zero_row_divides_witness :
    (Csr.mk 1 1 [0, 1] [0] [0]).Wf ∧ 0 < (Csr.mk 1 1 [0, 1] [0] [0]).rows ∧
    ((Csr.mk 1 1 [0, 1] [0] [0]).rowSlice 0).sum = 0 ∧
    (make_stochastic_matrix (Csr.mk 1 1 [0, 1] [0] [0])).rowSlice 0
      = ((Csr.mk 1 1 [0, 1] [0] [0]).rowSlice 0).map (fun x => x / 0) :=
  ⟨by decide, by decide, by simp [Csr.rowSlice, Csr.ptr],
    make_stochastic_zero_row_divides (Csr.mk 1 1 [0, 1] [0] [0]) (by decide)
      (by decide) (by simp [Csr.rowSlice, Csr.ptr])⟩

namespace Csr

lemma compute_kernel_wf (epsilon : ℝ) (m : Csr) (hwf : m.Wf) :
    (DiffusionMaps.compute_kernel_matrix epsilon m).Wf := by
  obtain ⟨h1, h2, h3, h4, h5, h6⟩ := hwf
  refine ⟨h1, h2, ?_, ?_, h5, h6⟩
  · simpa [DiffusionMaps.compute_kernel_matrix, ptr] using h3
  · simpa [DiffusionMaps.compute_kernel_matrix] using h4

lemma rowSlice_kernel_pos (epsilon : ℝ) (m : Csr) (i : Nat) :
    ∀ x ∈ (DiffusionMaps.compute_kernel_matrix epsilon m).rowSlice i, 0 < x := by
  rw [rowSlice_compute_kernel]
  intro x hx
  obtain ⟨d, _, rfl⟩ := List.mem_map.mp hx
  exact Real.exp_pos _

lemma rowSlice_kernel_sum_pos (epsilon : ℝ) (m : Csr) (hwf : m.Wf) {i : Nat}
    (hi : i < m.rows) (hne : m.ptr i < m.ptr (i+1)) :
    0 < ((DiffusionMaps.compute_kernel_matrix epsilon m).rowSlice i).sum := by
  apply List.sum_pos _ (rowSlice_kernel_pos epsilon m i)
  have hlen := rowSlice_length (DiffusionMaps.compute_kernel_matrix epsilon m)
    (compute_kernel_wf epsilon m hwf) (i := i) hi
  intro hnil
  rw [hnil] at hlen
  have hptr : (DiffusionMaps.compute_kernel_matrix epsilon m).ptr (i+1)
      - (DiffusionMaps.compute_kernel_matrix epsilon m).ptr i = m.ptr (i+1) - m.ptr i := rfl
  rw [hptr] at hlen
  simp at hlen
  omega

end Csr

/-- C3: with `normalize_kernel=True`, after normalization every row of the
exposed kernel matrix with at least one stored (hence nonzero) entry sums to
1 (in particular within `1e-9` absolute tolerance), and a row whose only
stored entry is the diagonal normalizes to a single entry equal to `1.0`. -/
theorem stochastic_rows_sum_to_one (epsilon : ℝ) (dm : Csr) (hwf : dm.Wf) {i : Nat}
    (hi : i < dm.rows) (hne : dm.ptr i < dm.ptr (i+1)) :
    ((make_stochastic_matrix (DiffusionMaps.compute_kernel_matrix epsilon dm)).rowSlice i).sum
        = 1 ∧
    |((make_stochastic_matrix (DiffusionMaps.compute_kernel_matrix epsilon dm)).rowSlice i).sum
        - 1| ≤ 1e-9 ∧
    (dm.ptr (i+1) = dm.ptr i + 1 →
      (make_stochastic_matrix (DiffusionMaps.compute_kernel_matrix epsilon dm)).rowSlice i
        = [1]) := by
  have hKwf := Csr.compute_kernel_wf epsilon dm hwf
  have hsum := Csr.rowSlice_kernel_sum_pos epsilon dm hwf hi hne
  have hstoch := Csr.rowSlice_make_stochastic
    (DiffusionMaps.compute_kernel_matrix epsilon dm) hKwf (i := i) hi
  have hone :
      ((make_stochastic_matrix (DiffusionMaps.compute_kernel_matrix epsilon dm)).rowSlice i).sum
        = 1 := by
    rw [hstoch, Csr.sum_map_div]
    exact div_self hsum.ne'
  refine ⟨hone, by rw [hone]; norm_num, ?_⟩
  intro hsingle
  have hlen : ((DiffusionMaps.compute_kernel_matrix epsilon dm).rowSlice i).length = 1 := by
    have := Csr.rowSlice_length (DiffusionMaps.compute_kernel_matrix epsilon dm) hKwf
      (i := i) hi
    have hptr : (DiffusionMaps.compute_kernel_matrix epsilon dm).ptr (i+1)
        - (DiffusionMaps.compute_kernel_matrix epsilon dm).ptr i
        = dm.ptr (i+1) - dm.ptr i := rfl
    omega
  obtain ⟨x, hx⟩ := List.length_eq_one.mp hlen
  have hxpos : 0 < x :=
    Csr.rowSlice_kernel_pos epsilon dm i x (hx ▸ List.mem_singleton_self x)
  rw [hstoch, hx]
  simp [div_self hxpos.ne']

/-- Concrete witness for C3: two points, the second row holding only its
diagonal entry (an isolated point). -/
theorem stochastic_rows_sum_to_one_witness :
    (Csr.mk 2 2 [0, 2, 3] [0, 1, 1] [0, 1, 0]).Wf ∧
    1 < (Csr.mk 2 2 [0, 2, 3] [0, 1, 1] [0, 1, 0]).rows ∧
    (Csr.mk 2 2 [0, 2, 3] [0, 1, 1] [0, 1, 0]).ptr 1
      < (Csr.mk 2 2 [0, 2, 3] [0, 1, 1] [0, 1, 0]).ptr 2 ∧
    ((make_stochastic_matrix
        (DiffusionMaps.compute_kernel_matrix 1
          (Csr.mk 2 2 [0, 2, 3] [0, 1, 1] [0, 1, 0]))).rowSlice 1).sum = 1 ∧
    (make_stochastic_matrix
        (DiffusionMaps.compute_kernel_matrix 1
          (Csr.mk 2 2 [0, 2, 3] [0, 1, 1] [0, 1, 0]))).rowSlice 1 = [1] :=
  ⟨by decide, by decide, by decide,
    (stochastic_rows_sum_to_one 1 (Csr.mk 2 2 [0, 2, 3] [0, 1, 1] [0, 1, 0])
      (by decide) (by decide) (by decide)).1,
    (stochastic_rows_sum_to_one 1 (Csr.mk 2 2 [0, 2, 3] [0, 1, 1] [0, 1, 0])
      (by decide) (by decide) (by decide)).2.2 (by decide)⟩

namespace Csr

lemma rowPairs_compute_kernel (epsilon : ℝ) (m : Csr) (i : Nat) :
    (DiffusionMaps.compute_kernel_matrix epsilon m).rowPairs i
      = (m.rowPairs i).map (Prod.map id (DiffusionMaps.kernel_function epsilon)) := by
  unfold rowPairs
  rw [rowSlice_compute_kernel]
  have hidx : (DiffusionMaps.compute_kernel_matrix epsilon m).rowIndices i
      = m.rowIndices i := rfl
  rw [hidx, List.zip_map_right]

lemma lookup_compute_kernel (epsilon : ℝ) (m : Csr) (i j : Nat) :
    (DiffusionMaps.compute_kernel_matrix epsilon m).lookup i j
      = (m.lookup i j).map (DiffusionMaps.kernel_function epsilon) := by
  unfold lookup
  rw [rowPairs_compute_kernel, List.find?_map]
  have hpred : ((fun p : Nat × ℝ => p.1 == j)
        ∘ Prod.map id (DiffusionMaps.kernel_function epsilon))
      = fun p : Nat × ℝ => p.1 == j := by
    funext p
    rfl
  rw [hpred, Option.map_map, Option.map_map]
  rfl

end Csr

/-- C8: when normalization is skipped the kernel matrix exposed by the engine
is symmetric: for all positions `(i, j)`, the stored kernel value at `(i, j)`
equals the one at `(j, i)` (both being absent counts as equal), provided the
input distance matrix is symmetric in the same sense. -/
theorem kernel_matrix_symmetric (epsilon : ℝ) (dm : Csr)
    (hsym : ∀ i j, dm.lookup i j = dm.lookup j i) :
    ∀ i j, (DiffusionMaps.compute_kernel_matrix epsilon dm).lookup i j
        = (DiffusionMaps.compute_kernel_matrix epsilon dm).lookup j i := by
  intro i j
  rw [Csr.lookup_compute_kernel, Csr.lookup_compute_kernel, hsym i j]

/-- Concrete witness for C8 (single point, symmetric 1×1 distance matrix). -/
theorem kernel_matrix_symmetric_witness :
    (∀ i j, (Csr.mk 1 1 [0, 1] [0] [0]).lookup i j
        = (Csr.mk 1 1 [0, 1] [0] [0]).lookup j i) ∧
    (∀ i j, (DiffusionMaps.compute_kernel_matrix 1 (Csr.mk 1 1 [0, 1] [0] [0])).lookup i j
        = (DiffusionMaps.compute_kernel_matrix 1 (Csr.mk 1 1 [0, 1] [0] [0])).lookup j i) :=
  ⟨by
    intro i j
    rcases i with _ | _ | i <;> rcases j with _ | _ | j <;>
      simp [Csr.lookup, Csr.rowPairs, Csr.rowIndices, Csr.rowSlice, Csr.ptr],
  kernel_matrix_symmetric 1 (Csr.mk 1 1 [0, 1] [0] [0]) (by
    intro i j
    rcases i with _ | _ | i <;> rcases j with _ | _ | j <;>
      simp [Csr.lookup, Csr.rowPairs, Csr.rowIndices, Csr.rowSlice, Csr.ptr])⟩

/-- C9: for every data set and draw of `n ≤ len(data)` distinct in-range
indices, `downsample` returns exactly `n` elements, each a row of `data`,
in the relative order they have in `data` (a sublist, so without
replacement); with `n > len(data)` the assertion fails and no result is
returned (unconditionally: the assert fires before the drawn indices are
used). -/
theorem downsample_returns_ordered_subset (data : List (List ℝ)) (n : Nat)
    (pick : List Nat) :
    (pick.length = n → pick.Nodup → (∀ i ∈ pick, i < data.length) →
      n ≤ data.length →
      ∃ out, downsample data n pick = some out ∧ out.length = n ∧ out.Sublist data) ∧
    (data.length < n → downsample data n pick = none) := by
  constructor
  · intro hlen hnodup hmem hle
    have hperm : (pick.mergeSort (fun a b => decide (a ≤ b))).Perm pick :=
      List.mergeSort_perm pick _
    have hsorted : List.Sorted (fun a b => a ≤ b)
        (pick.mergeSort (fun a b => decide (a ≤ b))) :=
      List.sorted_mergeSort' pick
    have hnodup' : (pick.mergeSort (fun a b => decide (a ≤ b))).Nodup :=
      hperm.nodup_iff.mpr hnodup
    have hlt : List.Pairwise (fun a b => a < b)
        (pick.mergeSort (fun a b => decide (a ≤ b))) :=
      hsorted.lt_of_le hnodup'
    have hmem' : ∀ a ∈ pick.mergeSort (fun a b => decide (a ≤ b)), a < data.length :=
      fun a ha => hmem a (hperm.subset ha)
    refine ⟨(pick.mergeSort (fun a b => decide (a ≤ b))).map (fun i => data.getD i []),
      ?_, by simp [hperm.length_eq, hlen], ?_⟩
    · simp only [downsample, if_pos hle]
    · have hpair : List.Pairwise (fun x1 x2 : Fin data.length => (x1 : Nat) < (x2 : Nat))
          ((pick.mergeSort (fun a b => decide (a ≤ b))).pmap
            (fun a h => (⟨a, h⟩ : Fin data.length)) hmem') := by
        rw [List.pairwise_pmap]
        exact hlt.imp (fun hab h1 h2 => hab)
      have hsub := List.map_get_sublist hpair
      rw [List.map_pmap] at hsub
      have heq : (pick.mergeSort (fun a b => decide (a ≤ b))).pmap
          (fun a h => data.get ⟨a, h⟩) hmem'
          = (pick.mergeSort (fun a b => decide (a ≤ b))).map (fun i => data.getD i []) := by
        have hc : (pick.mergeSort (fun a b => decide (a ≤ b))).pmap
            (fun a h => data.get ⟨a, h⟩) hmem'
            = (pick.mergeSort (fun a b => decide (a ≤ b))).pmap
              (fun a (_ : a < data.length) => data.getD a []) hmem' := by
          apply List.pmap_congr
          intro a _ h1 h2
          show data.get ⟨a, h1⟩ = data.getD a []
          rw [List.get_eq_getElem, List.getD_eq_getElem _ _ h1]
        rw [hc, List.pmap_eq_map]
      rw [heq] at hsub
      exact hsub
  · intro hgt
    simp only [downsample, if_neg (by omega : ¬ n ≤ data.length)]

/-- Concrete witness for C9, exercising both branches: a successful draw of
indices 2 and 0 from three rows, and a rejected request for 5 samples from
the same three rows. -/
theorem downsample_returns_ordered_subset_witness :
    (([2, 0] : List Nat).length = 2 ∧ ([2, 0] : List Nat).Nodup ∧
      (∀ i ∈ ([2, 0] : List Nat), i < ([[0], [1], [2]] : List (List ℝ)).length) ∧
      2 ≤ ([[0], [1], [2]] : List (List ℝ)).length ∧
      ∃ out, downsample [[0], [1], [2]] 2 [2, 0] = some out ∧ out.length = 2 ∧
        out.Sublist [[0], [1], [2]]) ∧
    (([[0], [1], [2]] : List (List ℝ)).length < 5 ∧
      downsample [[0], [1], [2]] 5 [2, 0] = none) :=
  ⟨⟨by decide, by decide, by decide, by decide,
    (downsample_returns_ordered_subset [[0], [1], [2]] 2 [2, 0]).1 (by decide)
      (by decide) (by decide) (by decide)⟩,
   ⟨by decide,
    (downsample_returns_ordered_subset [[0], [1], [2]] 5 [2, 0]).2 (by decide)⟩⟩

/-- C6: requesting `num_eigenpairs` greater than the number of points `N`
fails with a configuration error: a spec-conforming solver outcome for
`k > N` can only be the error outcome, never a success (with fewer pairs or
otherwise). -/
theorem eigensolver_rejects_k_gt_n (m : Csr) (k : Nat)
    (res : Except Unit (List ℝ × List (Nat → ℝ)))
    (hk : m.rows < k) (hok : SolverOK m k res) : res = .error () := by
  match res with
  | .error e => cases e; rfl
  | .ok (ews, evs) => exact absurd hok.1 (by omega)

/-- Concrete witness for C6: four points, ten requested eigenpairs. -/
theorem eigensolver_rejects_k_gt_n_witness :
    (Csr.mk 4 4 [0, 0, 0, 0, 0] [] []).rows < 10 ∧
    SolverOK (Csr.mk 4 4 [0, 0, 0, 0, 0] [] []) 10 (.error ()) ∧
    (Except.error () : Except Unit (List ℝ × List (Nat → ℝ))) = .error () :=
  ⟨by decide, trivial,
    eigensolver_rejects_k_gt_n (Csr.mk 4 4 [0, 0, 0, 0, 0] [] []) 10 (.error ())
      (by decide) trivial⟩

namespace Csr

lemma zipWith_right_proj_sum :
    ∀ (js : List Nat) (xs : List ℝ), js.length = xs.length →
      (List.zipWith (fun _ x => x) js xs).sum = xs.sum := by
  intro js
  induction js with
  | nil =>
    intro xs h
    have hx : xs = [] := List.length_eq_zero.mp h.symm
    simp [hx]
  | cons j js ih =>
    intro xs h
    cases xs with
    | nil => simp at h
    | cons x xs =>
      simp only [List.zipWith_cons_cons, List.sum_cons]
      rw [ih xs (by simpa using h)]

lemma zipWith_weighted_abs_sum_le (v : Nat → ℝ) (c : ℝ) (hc : 0 ≤ c) :
    ∀ (js : List Nat) (xs : List ℝ), (∀ x ∈ xs, 0 ≤ x) → (∀ j ∈ js, |v j| ≤ c) →
      |(List.zipWith (fun j x => x * v j) js xs).sum| ≤ xs.sum * c := by
  intro js
  induction js with
  | nil =>
    intro xs hxs _
    simp only [List.zipWith_nil_left, List.sum_nil, abs_zero]
    exact mul_nonneg (List.sum_nonneg hxs) hc
  | cons j js ih =>
    intro xs hxs hjs
    cases xs with
    | nil => simp
    | cons x xs =>
      simp only [List.zipWith_cons_cons, List.sum_cons]
      have hx : 0 ≤ x := hxs x (List.mem_cons_self x xs)
      have h1 := abs_add (x * v j) (List.zipWith (fun j x => x * v j) js xs).sum
      have h2 : |x * v j| ≤ x * c := by
        rw [abs_mul, abs_of_nonneg hx]
        exact mul_le_mul_of_nonneg_left (hjs j (List.mem_cons_self j js)) hx
      have h3 := ih xs (fun y hy => hxs y (List.mem_cons_of_mem x hy))
        (fun a ha => hjs a (List.mem_cons_of_mem j ha))
      have : (x + xs.sum) * c = x * c + xs.sum * c := by ring
      rw [this]
      linarith

lemma matVec_ones (m : Csr) (i : Nat)
    (hlen : (m.rowIndices i).length = (m.rowSlice i).length) :
    m.matVec (fun _ => 1) i = (m.rowSlice i).sum := by
  show (List.zipWith (fun j x => x * (fun _ : Nat => (1:ℝ)) j)
      (m.rowIndices i) (m.rowSlice i)).sum = _
  simp only [mul_one]
  exact zipWith_right_proj_sum (m.rowIndices i) (m.rowSlice i) hlen

lemma eigenvalue_le_one (S : Csr)
    (hidx : ∀ i, i < S.rows → ∀ j ∈ S.rowIndices i, j < S.rows)
    (hnonneg : ∀ i, i < S.rows → ∀ x ∈ S.rowSlice i, 0 ≤ x)
    (hsum : ∀ i, i < S.rows → (S.rowSlice i).sum = 1) :
    ∀ mu, IsEigenvalue S mu → mu ≤ 1 := by
  rintro mu ⟨v, ⟨⟨i1, hi1, hv1⟩, heig⟩⟩
  obtain ⟨i0, hi0, hmax⟩ := Finset.exists_max_image (Finset.range S.rows)
    (fun i => |v i|) ⟨i1, Finset.mem_range.mpr hi1⟩
  have hi0' : i0 < S.rows := Finset.mem_range.mp hi0
  have hvpos : 0 < |v i0| :=
    lt_of_lt_of_le (abs_pos.mpr hv1) (hmax i1 (Finset.mem_range.mpr hi1))
  have hb := zipWith_weighted_abs_sum_le v (|v i0|) (abs_nonneg _)
    (S.rowIndices i0) (S.rowSlice i0) (hnonneg i0 hi0')
    (fun j hj => hmax j (Finset.mem_range.mpr (hidx i0 hi0' j hj)))
  rw [hsum i0 hi0', one_mul] at hb
  have hb' : |mu * v i0| ≤ |v i0| := by
    rw [← heig i0 hi0']
    exact hb
  rw [abs_mul] at hb'
  have habs : |mu| ≤ 1 := (mul_le_iff_le_one_left hvpos).mp hb'
  exact le_of_abs_le habs

lemma mem_rowIndices_lt_cols (m : Csr) (hwf : m.Wf) (i : Nat) :
    ∀ j ∈ m.rowIndices i, j < m.cols := by
  intro j hj
  exact hwf.2.2.2.2.2 j (List.mem_of_mem_drop (List.mem_of_mem_take hj))

lemma pipeline_rowSlice_eq (epsilon : ℝ) (dm : Csr) (hwf : dm.Wf) {i : Nat}
    (hi : i < dm.rows) :
    (make_stochastic_matrix (DiffusionMaps.compute_kernel_matrix epsilon dm)).rowSlice i
      = ((DiffusionMaps.compute_kernel_matrix epsilon dm).rowSlice i).map
          (fun x => x / ((DiffusionMaps.compute_kernel_matrix epsilon dm).rowSlice i).sum) :=
  rowSlice_make_stochastic (DiffusionMaps.compute_kernel_matrix epsilon dm)
    (compute_kernel_wf epsilon dm hwf) (i := i) hi

lemma pipeline_rowSlice_sum_one (epsilon : ℝ) (dm : Csr) (hwf : dm.Wf) {i : Nat}
    (hi : i < dm.rows) (hne : dm.ptr i < dm.ptr (i+1)) :
    ((make_stochastic_matrix
        (DiffusionMaps.compute_kernel_matrix epsilon dm)).rowSlice i).sum = 1 := by
  rw [pipeline_rowSlice_eq epsilon dm hwf hi, sum_map_div]
  exact div_self (rowSlice_kernel_sum_pos epsilon dm hwf hi hne).ne'

lemma pipeline_rowSlice_nonneg (epsilon : ℝ) (dm : Csr) (hwf : dm.Wf) {i : Nat}
    (hi : i < dm.rows) (hne : dm.ptr i < dm.ptr (i+1)) :
    ∀ x ∈ (make_stochastic_matrix
        (DiffusionMaps.compute_kernel_matrix epsilon dm)).rowSlice i, 0 ≤ x := by
  rw [pipeline_rowSlice_eq epsilon dm hwf hi]
  intro x hx
  obtain ⟨y, hy, rfl⟩ := List.mem_map.mp hx
  exact div_nonneg (rowSlice_kernel_pos epsilon dm i y hy).le
    (rowSlice_kernel_sum_pos epsilon dm hwf hi hne).le

lemma pipeline_rowSlice_length (epsilon : ℝ) (dm : Csr) (hwf : dm.Wf) {i : Nat}
    (hi : i < dm.rows) :
    ((make_stochastic_matrix
        (DiffusionMaps.compute_kernel_matrix epsilon dm)).rowSlice i).length
      = dm.ptr (i+1) - dm.ptr i := by
  rw [pipeline_rowSlice_eq epsilon dm hwf hi, List.length_map]
  have := rowSlice_length (DiffusionMaps.compute_kernel_matrix epsilon dm)
    (compute_kernel_wf epsilon dm hwf) (i := i) hi
  exact this

end Csr

/-- C7: the eigenvalues returned by a spec-conforming solver run are sorted
in descending order, and on the row-normalized kernel matrix
(`normalize_kernel=True`) the largest returned eigenvalue equals 1.0, in
particular to within `1e-6`. -/
theorem eigenvalues_sorted_top_one (epsilon : ℝ) (dm : Csr) (k : Nat)
    (res : Except Unit (List ℝ × List (Nat → ℝ)))
    (hwf : dm.Wf) (hsq : dm.cols = dm.rows)
    (hdiag : ∀ i, i < dm.rows → dm.ptr i < dm.ptr (i+1)) (hk : 1 ≤ k)
    (hok : SolverOK
      (make_stochastic_matrix (DiffusionMaps.compute_kernel_matrix epsilon dm)) k res) :
    ∀ ews evs, res = .ok (ews, evs) →
      List.Sorted (fun a b => a ≥ b) ews ∧
      ∃ l0, ews.head? = some l0 ∧ |l0 - 1| ≤ 1e-6 := by
  intro ews evs hres
  subst hres
  obtain ⟨hkn, hewslen, hevslen, hsorted, hpairs, hmax⟩ := hok
  refine ⟨hsorted, ?_⟩
  have hidx : ∀ i, i <
      (make_stochastic_matrix (DiffusionMaps.compute_kernel_matrix epsilon dm)).rows →
      ∀ j ∈ (make_stochastic_matrix
        (DiffusionMaps.compute_kernel_matrix epsilon dm)).rowIndices i,
      j < (make_stochastic_matrix
        (DiffusionMaps.compute_kernel_matrix epsilon dm)).rows := by
    intro i hi j hj
    have := Csr.mem_rowIndices_lt_cols dm hwf i j hj
    exact hsq ▸ this
  have hnonneg : ∀ i, i <
      (make_stochastic_matrix (DiffusionMaps.compute_kernel_matrix epsilon dm)).rows →
      ∀ x ∈ (make_stochastic_matrix
        (DiffusionMaps.compute_kernel_matrix epsilon dm)).rowSlice i, 0 ≤ x :=
    fun i hi => Csr.pipeline_rowSlice_nonneg epsilon dm hwf hi (hdiag i hi)
  have hsum1 : ∀ i, i <
      (make_stochastic_matrix (DiffusionMaps.compute_kernel_matrix epsilon dm)).rows →
      ((make_stochastic_matrix
        (DiffusionMaps.compute_kernel_matrix epsilon dm)).rowSlice i).sum = 1 :=
    fun i hi => Csr.pipeline_rowSlice_sum_one epsilon dm hwf hi (hdiag i hi)
  have hle1 := Csr.eigenvalue_le_one
    (make_stochastic_matrix (DiffusionMaps.compute_kernel_matrix epsilon dm))
    hidx hnonneg hsum1
  have hlen : ∀ i, i <
      (make_stochastic_matrix (DiffusionMaps.compute_kernel_matrix epsilon dm)).rows →
      ((make_stochastic_matrix
        (DiffusionMaps.compute_kernel_matrix epsilon dm)).rowIndices i).length
      = ((make_stochastic_matrix
        (DiffusionMaps.compute_kernel_matrix epsilon dm)).rowSlice i).length := by
    intro i hi
    rw [Csr.pipeline_rowSlice_length epsilon dm hwf hi]
    exact Csr.rowIndices_length dm hwf hi
  have hones : IsEigenpair
      (make_stochastic_matrix (DiffusionMaps.compute_kernel_matrix epsilon dm)) 1
      (fun _ => 1) := by
    refine ⟨⟨0, Nat.lt_of_lt_of_le (by omega) hkn, one_ne_zero⟩, ?_⟩
    intro i hi
    rw [Csr.matVec_ones _ i (hlen i hi), hsum1 i hi]
    norm_num
  have heigone : IsEigenvalue
      (make_stochastic_matrix (DiffusionMaps.compute_kernel_matrix epsilon dm)) 1 :=
    ⟨fun _ => 1, hones⟩
  cases ews with
  | nil => simp at hewslen; omega
  | cons l0 rest =>
    refine ⟨l0, rfl, ?_⟩
    have h1 : l0 ≤ 1 := by
      have hp := hpairs 0 (by omega)
      exact hle1 l0 ⟨_, hp⟩
    have h2 : 1 ≤ l0 := hmax 1 heigone l0 (by simp)
    have : l0 = 1 := le_antisymm h1 h2
    rw [this]
    norm_num

lemma solverOK_pipeline_singleton :
    SolverOK (make_stochastic_matrix
      (DiffusionMaps.compute_kernel_matrix 1 (Csr.mk 1 1 [0, 1] [0] [0]))) 1
      (.ok ([1], [fun _ => 1])) := by
  have hwf : (Csr.mk 1 1 [0, 1] [0] [0]).Wf := by decide
  have hdiag : ∀ i, i < (Csr.mk 1 1 [0, 1] [0] [0]).rows →
      (Csr.mk 1 1 [0, 1] [0] [0]).ptr i < (Csr.mk 1 1 [0, 1] [0] [0]).ptr (i+1) := by
    decide
  have hlen0 : ((make_stochastic_matrix
        (DiffusionMaps.compute_kernel_matrix 1 (Csr.mk 1 1 [0, 1] [0] [0]))).rowIndices 0).length
      = ((make_stochastic_matrix
        (DiffusionMaps.compute_kernel_matrix 1 (Csr.mk 1 1 [0, 1] [0] [0]))).rowSlice 0).length := by
    rw [Csr.pipeline_rowSlice_length 1 (Csr.mk 1 1 [0, 1] [0] [0]) hwf (by decide)]
    exact Csr.rowIndices_length (Csr.mk 1 1 [0, 1] [0] [0]) hwf (by decide)
  refine ⟨le_refl 1, rfl, rfl, by simp, ?_, ?_⟩
  · intro p hp
    obtain rfl : p = 0 := by omega
    show IsEigenpair _ 1 (fun _ => 1)
    refine ⟨⟨0, Nat.zero_lt_one, one_ne_zero⟩, ?_⟩
    intro i hi
    obtain rfl : i = 0 := by
      have hr : (make_stochastic_matrix
          (DiffusionMaps.compute_kernel_matrix 1 (Csr.mk 1 1 [0, 1] [0] [0]))).rows = 1 := rfl
      omega
    rw [Csr.matVec_ones _ 0 hlen0,
      Csr.pipeline_rowSlice_sum_one 1 (Csr.mk 1 1 [0, 1] [0] [0]) hwf (by decide) (by decide)]
    norm_num
  · intro mu hmu l0 hl0
    have hle := Csr.eigenvalue_le_one
      (make_stochastic_matrix (DiffusionMaps.compute_kernel_matrix 1 (Csr.mk 1 1 [0, 1] [0] [0])))
      (fun i _ j hj => Csr.mem_rowIndices_lt_cols (Csr.mk 1 1 [0, 1] [0] [0]) hwf i j hj)
      (fun i hi => Csr.pipeline_rowSlice_nonneg 1 (Csr.mk 1 1 [0, 1] [0] [0]) hwf hi (hdiag i hi))
      (fun i hi => Csr.pipeline_rowSlice_sum_one 1 (Csr.mk 1 1 [0, 1] [0] [0]) hwf hi (hdiag i hi))
      mu hmu
    have hl : (1:ℝ) = l0 := by simpa using hl0
    rw [← hl]
    exact hle

/-- Concrete witness for C7 (single point, epsilon = 1, one requested pair,
and a successful solver return of the eigenpair `(1, constant vector)`). -/
theorem eigenvalues_sorted_top_one_witness :
    (Csr.mk 1 1 [0, 1] [0] [0]).Wf ∧
    (Csr.mk 1 1 [0, 1] [0] [0]).cols = (Csr.mk 1 1 [0, 1] [0] [0]).rows ∧
    (∀ i, i < (Csr.mk 1 1 [0, 1] [0] [0]).rows →
      (Csr.mk 1 1 [0, 1] [0] [0]).ptr i < (Csr.mk 1 1 [0, 1] [0] [0]).ptr (i+1)) ∧
    1 ≤ 1 ∧
    SolverOK (make_stochastic_matrix
      (DiffusionMaps.compute_kernel_matrix 1 (Csr.mk 1 1 [0, 1] [0] [0]))) 1
      (.ok ([1], [fun _ => 1])) ∧
    (List.Sorted (fun a b => a ≥ b) ([1] : List ℝ) ∧
      ∃ l0, ([1] : List ℝ).head? = some l0 ∧ |l0 - 1| ≤ 1e-6) :=
  ⟨by decide, rfl, by decide, le_refl 1, solverOK_pipeline_singleton,
    eigenvalues_sorted_top_one 1 (Csr.mk 1 1 [0, 1] [0] [0]) 1
      (.ok ([1], [fun _ => 1])) (by decide) rfl (by decide) (le_refl 1)
      solverOK_pipeline_singleton [1] [fun _ => 1] rfl⟩
